import Mathlib

/-!
Verification development for the `wallet-tracer` repository.

The Python sources are shallowly embedded as Lean definitions:

* `src/src/tracer/services/tracer_service.py` — the tracing engine
  (`TracerService.trace` and its helpers);
* `src/src/tracer/adapters/pricing/price_adapter.py` — the token pricing
  resolver (`PriceAdapter.get_token_usd_price`);
* `src/src/tracer/adapters/chain/etherscan_chain_adapter.py` — the retry
  envelope (`EtherscanChainAdapter._call`);
* `src/src/tracer/core/models.py` / `core/dto.py` — the data model.

Python `decimal.Decimal` values are modelled as rationals (every finite
`Decimal` is a rational number).  The engine runs with the default decimal
context, whose precision is 28 significant digits; division therefore
rounds the exact quotient to 28 significant digits (round-half-even),
which the model `dec_div_pow10` reproduces.
-/

namespace Tracer

/-! ### Python `decimal.Decimal` division by a power of ten

`Decimal(v) / WEI_PER_ETH` and `Decimal(v) / (Decimal(10) ** Decimal(d))`
divide an exactly-represented integer by `10 ^ d` (both `WEI_PER_ETH` and
`Decimal(10) ** Decimal(d)` are exact powers of ten).  The result of a
`Decimal` division is the exact quotient correctly rounded to the context
precision of 28 significant digits, rounding half to even.  For `v` with at
most 28 significant digits the quotient `v / 10 ^ d` is exactly
representable and no rounding happens. -/

/-- Round `num / den` (with `den > 0`) to the nearest integer, rounding
half to even. -/

def round_half_even (num den : ℕ) : ℕ :=
  let q := num / den
  let r := num % den
  if 2 * r < den then q
  else if den < 2 * r then q + 1
  else if q % 2 = 0 then q else q + 1

/-- Number of decimal digits of `n`, computed with an explicit fuel
argument (`fuel ≥ n` suffices, see `digits10_aux_spec`). -/

def digits10_aux : ℕ → ℕ → ℕ
  | 0, _ => 1
  | fuel + 1, n => if n < 10 then 1 else digits10_aux fuel (n / 10) + 1

/-- Number of decimal digits of `n` (1 for `n = 0`). -/

def digits10 (n : ℕ) : ℕ := digits10_aux n n

/-- The context precision of Python's default decimal context. -/

def DECIMAL_PREC : ℕ := 28

/-- Value of the Python expression `Decimal(v) / Decimal(10 ** d)` for a
natural number `v`: the exact quotient when `v` fits in 28 significant
digits, otherwise the quotient with the coefficient `v` rounded half-even
to 28 significant digits. -/

def dec_div_pow10_nat (v d : ℕ) : ℚ :=
  if v = 0 then 0
  else
    let nd := digits10 v
    if nd ≤ DECIMAL_PREC then (v : ℚ) / 10 ^ d
    else
      let k := nd - DECIMAL_PREC
      ((round_half_even v (10 ^ k) : ℚ) * 10 ^ k) / 10 ^ d

/-- Value of `Decimal(v) / Decimal(10 ** d)` for a Python `int` `v`
(decimal rounding is symmetric around zero). -/

def dec_div_pow10 (v : ℤ) (d : ℕ) : ℚ :=
  if v < 0 then -(dec_div_pow10_nat v.natAbs d) else dec_div_pow10_nat v.natAbs d

/-! ### Python `str.lower`

Addresses in this code base are ASCII hexadecimal strings; `str.lower` is
modelled as ASCII lowercasing (the same mapping as Lean's
`Char.toLower`). -/

/-- Model of Python `str.lower()`. -/

def py_lower (s : String) : String := ⟨s.data.map Char.toLower⟩

/-! ### Data model (`src/src/tracer/core/models.py`, `core/dto.py`)

`Decimal` values are rationals, Python `int` is `ℤ` (`ℕ` for the
non-negative `days`/`hops`/cap knobs, whose spec domain is non-negative
integers), `Optional[X]` is `Option X`. -/

/-- `TraceConfig` (models.py lines 11-25).  Note: the dataclass declares
no `skip_contract_check` and no `ignore_unknown_price` field. -/

structure TraceConfig where
  address : String
  days : ℕ := 30
  hops : ℕ := 2
  min_usd : ℚ := 0
  now_ts : Option ℤ := none
  max_edges_per_address : ℕ := 0
  max_total_edges : ℕ := 0
deriving Repr

/-- `Node` (models.py lines 31-35). -/

structure Node where
  address : String
  is_contract : Bool := false
deriving DecidableEq, Repr

/-- `Edge` (models.py lines 42-56). -/

structure Edge where
  from_address : String
  to_address : String
  tx_hash : String
  timestamp : ℤ
  asset_type : String
  token_address : Option String
  symbol : Option String
  amount : ℚ
  usd_value : Option ℚ
deriving DecidableEq, Repr

/-- `Graph` (models.py lines 59-63); `nodes` is an insertion-ordered map
from address to `Node`, modelled as an association list. -/

structure Graph where
  nodes : List (String × Node) := []
  edges : List Edge := []
deriving DecidableEq, Repr

/-- `RawEthTransfer` (dto.py lines 6-13). -/

structure RawEthTransfer where
  tx_hash : String
  block_number : ℤ
  timestamp : ℤ
  from_address : String
  to_address : String
  value_wei : ℤ
deriving DecidableEq, Repr

/-- `RawErc20Transfer` (dto.py lines 16-27). -/

structure RawErc20Transfer where
  tx_hash : String
  block_number : ℤ
  timestamp : ℤ
  from_address : String
  to_address : String
  token_address : String
  value_raw : ℤ
  token_symbol : Option String := none
  token_decimals : Option ℕ := none
deriving DecidableEq, Repr

/-- The composite deduplication key
`(e.tx_hash, e.from_address, e.to_address, e.asset_type, e.token_address)`
(tracer_service.py lines 149 and 324). -/

def edge_key (e : Edge) : String × String × String × String × Option String :=
  (e.tx_hash, e.from_address, e.to_address, e.asset_type, e.token_address)

/-! ### Ports

`ChainDataPort` and `PricePort` as consumed by the engine.  The lazy
iterators are modelled as the finite lists of rows they yield; the `sort`
keyword argument is kept.  `is_contract` may raise (the engine catches the
exception), so it returns `Except`. -/

structure ChainDataPort where
  get_block_number_by_time : ℤ → String → ℤ
  iter_normal_txs : String → ℤ → ℤ → String → List RawEthTransfer
  iter_erc20_transfers : String → ℤ → ℤ → String → List RawErc20Transfer
  is_contract : String → Except Unit Bool

structure PricePort where
  get_eth_usd_price : ℤ → ℚ
  get_token_usd_price : String → ℤ → Option ℚ

/-! ### Progress events

The engine emits `(event, payload)` pairs to an optional sink
(`on_progress`).  Payload values are ints, strings or decimals. -/

inductive PVal where
  | i : ℤ → PVal
  | s : String → PVal
  | q : ℚ → PVal
deriving DecidableEq, Repr

structure Event where
  name : String
  payload : List (String × PVal)
deriving DecidableEq, Repr

/-- A progress sink is a callable that may raise (modelled by `Except`).
Its calls have no influence on the engine state; `Except.error` models an
exception escaping the callable. -/

def Sink : Type := String → List (String × PVal) → Except Unit Unit

/-! ### Pipeline helpers of `TracerService` -/

/-- Loop body of `TracerService._apply_min_usd` (tracer_service.py lines
311-318): keep edges with unknown `usd_value`, keep edges with
`usd_value ≥ min_usd`, drop the rest. -/

def keep_min_usd (min_usd : ℚ) : List Edge → List Edge
  | [] => []
  | e :: rest =>
    match e.usd_value with
    | none => e :: keep_min_usd min_usd rest
    | some v =>
      if min_usd ≤ v then e :: keep_min_usd min_usd rest
      else keep_min_usd min_usd rest

/-- `TracerService._apply_min_usd` (tracer_service.py lines 307-318). -/

def apply_min_usd (edges : List Edge) (min_usd : ℚ) : List Edge :=
  if min_usd ≤ 0 then edges else keep_min_usd min_usd edges

/-- Loop of `TracerService._dedupe_edges` (tracer_service.py lines
320-329): drop edges whose key was already seen, first occurrence wins. -/

def dedupe_edges_aux (seen : List (String × String × String × String × Option String)) :
    List Edge → List Edge
  | [] => []
  | e :: rest =>
    if edge_key e ∈ seen then dedupe_edges_aux seen rest
    else e :: dedupe_edges_aux (seen ++ [edge_key e]) rest

/-- `TracerService._dedupe_edges`. -/

def dedupe_edges (edges : List Edge) : List Edge :=
  dedupe_edges_aux [] edges

/-- `TracerService._edge_sort_key` (tracer_service.py lines 339-344):
unknown `usd_value` sorts as `-1`. -/

def edge_sort_key (e : Edge) : ℚ :=
  match e.usd_value with
  | none => -1
  | some v => v

/-- `a` may come before `b` in the descending ranking. -/

def edge_ge (a b : Edge) : Prop := edge_sort_key b ≤ edge_sort_key a

instance : DecidableRel edge_ge := fun a b =>
  inferInstanceAs (Decidable (edge_sort_key b ≤ edge_sort_key a))

/-- `new_edges.sort(key=self._edge_sort_key, reverse=True)`
(tracer_service.py line 132).  Python `list.sort` is a stable sort, and
with `reverse=True` elements with equal keys keep their original relative
order; a stable descending sort is uniquely determined by those two
properties, so the insertion sort below computes the same list. -/

def rank_edges (edges : List Edge) : List Edge :=
  List.insertionSort edge_ge edges

/-- String order used by Python `sorted` on a set of addresses
(lexicographic by code point, like Lean's `String` order). -/

def str_le (a b : String) : Prop := ¬ b < a

instance : DecidableRel str_le := fun a b =>
  inferInstanceAs (Decidable (¬ b < a))

/-- `TracerService._neighbor_addresses` (tracer_service.py lines 331-337):
the set of endpoint addresses of `edges` minus `focus.lower()`, sorted. -/

def neighbor_addresses (focus : String) (edges : List Edge) : List String :=
  List.insertionSort str_le
    (((edges.flatMap fun e => [e.from_address, e.to_address]).dedup).filter
      fun a => a ≠ py_lower focus)

/-! ### Edge builders (`_eth_edges_for`, `_erc20_edges_for`) -/

/-- `WEI_PER_ETH = Decimal("1000000000000000000")` (tracer_service.py
line 14): the divisor is `10 ^ 18`. -/

def WEI_PER_ETH_EXP : ℕ := 18

/-- The `Edge` built for one raw ETH transfer (tracer_service.py lines
212-228): `amount = Decimal(value_wei) / WEI_PER_ETH`,
`usd_value = amount * eth_usd`. -/

def mk_eth_edge (price : PricePort) (tx : RawEthTransfer) : Edge :=
  let eth_usd := price.get_eth_usd_price tx.timestamp
  let amount_eth := dec_div_pow10 tx.value_wei WEI_PER_ETH_EXP
  { from_address := py_lower tx.from_address
    to_address := py_lower tx.to_address
    tx_hash := tx.tx_hash
    timestamp := tx.timestamp
    asset_type := "ETH"
    token_address := none
    symbol := some "ETH"
    amount := amount_eth
    usd_value := some (amount_eth * eth_usd) }

/-- Loop of `TracerService._eth_edges_for` (tracer_service.py lines
203-230): transfers with `value_wei <= 0` are skipped. -/

def eth_edges_aux (price : PricePort) : List RawEthTransfer → List Edge
  | [] => []
  | tx :: rest =>
    if tx.value_wei ≤ 0 then eth_edges_aux price rest
    else mk_eth_edge price tx :: eth_edges_aux price rest

/-- `TracerService._eth_edges_for`. -/

def eth_edges_for (chain : ChainDataPort) (price : PricePort) (address : String)
    (start_block end_block : ℤ) : List Edge :=
  eth_edges_aux price (chain.iter_normal_txs address start_block end_block "asc")

/-- The `Edge` built for one raw ERC-20 transfer (tracer_service.py lines
241-267): `amount = Decimal(value_raw)`, divided by
`Decimal(10) ** Decimal(decimals)` when `decimals` is known
(`Decimal(10) ** Decimal(d)` is the exact power `10 ^ d`). -/

def mk_erc20_edge (price : PricePort) (tx : RawErc20Transfer) : Edge :=
  let amount : ℚ :=
    match tx.token_decimals with
    | none => (tx.value_raw : ℚ)
    | some d => dec_div_pow10 tx.value_raw d
  let token_price := price.get_token_usd_price tx.token_address tx.timestamp
  { from_address := py_lower tx.from_address
    to_address := py_lower tx.to_address
    tx_hash := tx.tx_hash
    timestamp := tx.timestamp
    asset_type := "ERC20"
    token_address := some (py_lower tx.token_address)
    symbol := tx.token_symbol
    amount := amount
    usd_value := token_price.map fun p => amount * p }

/-- Loop of `TracerService._erc20_edges_for` (tracer_service.py lines
232-269): with `ignore_unknown_price` set, rows without a token price are
dropped. -/

def erc20_edges_aux (price : PricePort) (ignore_unknown_price : Bool) :
    List RawErc20Transfer → List Edge
  | [] => []
  | tx :: rest =>
    if ignore_unknown_price ∧ price.get_token_usd_price tx.token_address tx.timestamp = none
    then erc20_edges_aux price ignore_unknown_price rest
    else mk_erc20_edge price tx :: erc20_edges_aux price ignore_unknown_price rest

/-- `TracerService._erc20_edges_for`. -/

def erc20_edges_for (chain : ChainDataPort) (price : PricePort) (address : String)
    (start_block end_block : ℤ) (ignore_unknown_price : Bool) : List Edge :=
  erc20_edges_aux price ignore_unknown_price
    (chain.iter_erc20_transfers address start_block end_block "asc")

/-! ### The tracing engine (`TracerService.trace`)

`getattr(cfg, "skip_contract_check", True)` and
`getattr(cfg, "ignore_unknown_price", False)` are evaluated against the
declared `TraceConfig` dataclass, which has neither field, so the
defaults are always taken. -/

/-- `bool(getattr(cfg, "skip_contract_check", True))` (tracer_service.py
lines 105, 160, 167): `TraceConfig` declares no such field, so this is
always `True`. -/

def cfg_skip_contract_check (_cfg : TraceConfig) : Bool := true

/-- `bool(getattr(cfg, "ignore_unknown_price", False))` (tracer_service.py
line 120): `TraceConfig` declares no such field, so this is always
`False`. -/

def cfg_ignore_unknown_price (_cfg : TraceConfig) : Bool := false

/-- `_hopItem` (tracer_service.py lines 17-20). -/

structure HopItem where
  address : String
  depth : ℕ
deriving DecidableEq, Repr

/-- The collaborators and per-run constants of one `trace` call. -/

structure Ctx where
  chain : ChainDataPort
  price : PricePort
  cfg : TraceConfig
  sink : Option Sink
  start_block : ℤ
  end_block : ℤ

/-- The mutable state of one `trace` call: the graph under construction,
the visitation and dedupe sets, the counters, and the list of progress
events emitted so far (`events` records the emissions; the outcome of the
sink call inside `_emit` is discarded by its `try/except`,
tracer_service.py lines 49-56). -/

structure St where
  graph : Graph := {}
  seen_addr_depth : List (String × ℕ) := []
  seen_edge_keys : List (String × String × String × String × Option String) := []
  total_edges_added : ℕ := 0
  processed : ℕ := 0
  checked : ℕ := 0
  errors : ℕ := 0
  events : List Event := []

/-- `_emit(event, data)`: record the emission; a sink exception is
swallowed, so the state of the traversal is unaffected. -/

def emit (st : St) (name : String) (payload : List (String × PVal)) : St :=
  { st with events := st.events ++ [⟨name, payload⟩] }

/-- `TracerService._ensure_node` (tracer_service.py lines 275-305).  The
`skip_contract_check` argument is passed by each call site.  In the probe
branch an `is_contract` exception is degraded to `False` (counted in
`errors`); every 25 checks the sink is invoked directly — not through
`_emit` — so an exception it raises propagates (`Except.error`). -/

def ensure_node (ctx : Ctx) (st : St) (address : String)
    (skip_contract_check : Bool) : Except Unit St :=
  let addr := py_lower address
  if (st.graph.nodes.lookup addr).isSome then .ok st
  else if skip_contract_check then
    .ok { st with graph :=
      { st.graph with nodes := st.graph.nodes ++ [(addr, { address := addr, is_contract := false })] } }
  else
    let probed : Bool × ℕ :=
      match ctx.chain.is_contract addr with
      | .ok b => (b, 0)
      | .error _ => (false, 1)
    let st := { st with checked := st.checked + 1, errors := st.errors + probed.2 }
    let finish : St :=
      { st with graph :=
        { st.graph with nodes := st.graph.nodes ++ [(addr, { address := addr, is_contract := probed.1 })] } }
    match ctx.sink with
    | some s =>
      if st.checked % 25 = 0 then
        match s "contract_progress" [("checked", .i st.checked), ("errors", .i st.errors)] with
        | .ok _ =>
          .ok { finish with events := finish.events ++
            [⟨"contract_progress", [("checked", .i st.checked), ("errors", .i st.errors)]⟩] }
        | .error e => .error e
      else .ok finish
    | none => .ok finish

/-- One iteration of the `for e in new_edges` loop (tracer_service.py
lines 148-168): skip globally seen keys, otherwise append the edge,
count it and ensure both endpoint nodes. -/

def add_one_edge (ctx : Ctx) (st : St) (e : Edge) : Except Unit St :=
  if edge_key e ∈ st.seen_edge_keys then .ok st
  else do
    let st := { st with
      seen_edge_keys := st.seen_edge_keys ++ [edge_key e],
      graph := { st.graph with edges := st.graph.edges ++ [e] },
      total_edges_added := st.total_edges_added + 1 }
    let st ← ensure_node ctx st e.from_address (cfg_skip_contract_check ctx.cfg)
    ensure_node ctx st e.to_address (cfg_skip_contract_check ctx.cfg)

def add_edges (ctx : Ctx) : St → List Edge → Except Unit St
  | st, [] => .ok st
  | st, e :: rest => do
    let st ← add_one_edge ctx st e
    add_edges ctx st rest

/-- One iteration of the `while q` loop (tracer_service.py lines 85-185)
for the dequeued `item`.  `rest_count` is the number of items still ahead
in the queue from the current BFS level and `acc` the items already
enqueued for the next level, so `rest_count + acc.length` is `len(q)` as
reported in the `visit` event.  Returns the new state, the new `acc`, and
whether the `break` on the exhausted total-edges budget fired. -/

def process_item (ctx : Ctx) (st : St) (item : HopItem) (rest_count : ℕ)
    (acc : List HopItem) : Except Unit (St × List HopItem × Bool) :=
  let addr := py_lower item.address
  let depth := item.depth
  let st := { st with processed := st.processed + 1 }
  if ctx.cfg.hops < depth then .ok (st, acc, false)
  else if (addr, depth) ∈ st.seen_addr_depth then .ok (st, acc, false)
  else do
    let st := { st with seen_addr_depth := st.seen_addr_depth ++ [(addr, depth)] }
    let st ← ensure_node ctx st addr (cfg_skip_contract_check ctx.cfg)
    let st := emit st "fetch"
      [("phase", .s "eth"), ("address", .s addr), ("depth", .i depth)]
    let eth_edges := eth_edges_for ctx.chain ctx.price addr ctx.start_block ctx.end_block
    let st := emit st "fetch_done"
      [("phase", .s "eth"), ("address", .s addr), ("count", .i eth_edges.length)]
    let st := emit st "fetch"
      [("phase", .s "erc20"), ("address", .s addr), ("depth", .i depth)]
    let erc20_edges := erc20_edges_for ctx.chain ctx.price addr ctx.start_block
      ctx.end_block (cfg_ignore_unknown_price ctx.cfg)
    let st := emit st "fetch_done"
      [("phase", .s "erc20"), ("address", .s addr), ("count", .i erc20_edges.length)]
    let new_edges := eth_edges ++ erc20_edges
    let new_edges := apply_min_usd new_edges ctx.cfg.min_usd
    let new_edges := dedupe_edges new_edges
    let new_edges := rank_edges new_edges
    let per_addr_limit := ctx.cfg.max_edges_per_address
    let new_edges := if 0 < per_addr_limit then new_edges.take per_addr_limit else new_edges
    let max_total := ctx.cfg.max_total_edges
    let capped : Option (List Edge) :=
      if 0 < max_total then
        let remaining : ℤ := (max_total : ℤ) - (st.total_edges_added : ℤ)
        if remaining ≤ 0 then none else some (new_edges.take remaining.toNat)
      else some new_edges
    match capped with
    | none => .ok (st, acc, true)
    | some new_edges => do
      let st ← add_edges ctx st new_edges
      let acc :=
        if depth < ctx.cfg.hops then
          acc ++ (neighbor_addresses addr new_edges).map fun n => HopItem.mk n (depth + 1)
        else acc
      let st := emit st "visit"
        [("address", .s addr), ("depth", .i depth), ("queue", .i (rest_count + acc.length)),
         ("processed", .i st.processed), ("edges", .i st.total_edges_added)]
      .ok (st, acc, false)

/-- Process the remaining items of the current BFS level in queue order.
The deque is strictly FIFO and every enqueued item carries
`depth + 1` of the item being processed, so the queue always consists of
the tail of the current level followed by the accumulated next level;
processing it level by level visits items in exactly the pop order of the
Python loop. -/

def run_level (ctx : Ctx) : List HopItem → St → List HopItem →
    Except Unit (St × List HopItem × Bool)
  | [], st, acc => .ok (st, acc, false)
  | item :: rest, st, acc => do
    let (st, acc, broke) ← process_item ctx st item rest.length acc
    if broke then .ok (st, acc, true)
    else run_level ctx rest st acc

/-- Run successive BFS levels.  `level_fuel` bounds the number of levels;
`trace` passes `cfg.hops + 2`, which `trace_go_fuel_stable` below shows is
enough (items are only enqueued with `depth < hops`, so level `hops + 1`
onwards is always empty). -/

def trace_go (ctx : Ctx) : ℕ → List HopItem → St → Except Unit St
  | _, [], st => .ok st
  | 0, _ :: _, st => .ok st
  | fuel + 1, level, st => do
    let (st, next, broke) ← run_level ctx level st []
    if broke then .ok st
    else trace_go ctx fuel next st

/-- `TracerService.trace` (tracer_service.py lines 36-197).  `wall_clock`
models `int(time.time())`, used when `cfg.now_ts` is unset or zero.  The
result is the final engine state; the Python method returns its
`graph`. -/

def trace (cfg : TraceConfig) (chain : ChainDataPort) (price : PricePort)
    (wall_clock : ℤ) (sink : Option Sink) : Except Unit St :=
  let now_ts : ℤ :=
    match cfg.now_ts with
    | none => wall_clock
    | some r => if r = 0 then wall_clock else r
  let start_ts : ℤ := now_ts - (cfg.days : ℤ) * 24 * 3600
  let st : St := {}
  let st := emit st "start"
    [("address", .s cfg.address), ("days", .i cfg.days), ("hops", .i cfg.hops),
     ("min_usd", .q cfg.min_usd), ("start_ts", .i start_ts), ("now_ts", .i now_ts)]
  let start_block := chain.get_block_number_by_time start_ts "after"
  let end_block := chain.get_block_number_by_time now_ts "before"
  let ctx : Ctx :=
    { chain := chain, price := price, cfg := cfg, sink := sink,
      start_block := start_block, end_block := end_block }
  do
    let st ← trace_go ctx (cfg.hops + 2) [⟨py_lower cfg.address, 0⟩] st
    .ok (emit st "done"
      [("processed", .i st.processed), ("nodes", .i st.graph.nodes.length),
       ("edges", .i st.graph.edges.length), ("contract_checked", .i st.checked),
       ("contract_errors", .i st.errors)])

/-- The graph returned by `trace` (total extractor; `trace_ok` below shows
`trace` never yields `Except.error`, so this is the returned graph). -/

def trace_graph (cfg : TraceConfig) (chain : ChainDataPort) (price : PricePort)
    (wall_clock : ℤ) (sink : Option Sink) : Graph :=
  match trace cfg chain price wall_clock sink with
  | .ok st => st.graph
  | .error _ => {}

/-- The final `contract_stats["checked"]` counter of a run (total
extractor); it counts exactly the `chain.is_contract` probes made. -/

def trace_checked (cfg : TraceConfig) (chain : ChainDataPort) (price : PricePort)
    (wall_clock : ℤ) (sink : Option Sink) : ℕ :=
  match trace cfg chain price wall_clock sink with
  | .ok st => st.checked
  | .error _ => 0

/-! ### Pricing resolver (`PriceAdapter.get_token_usd_price`,
`src/src/tracer/adapters/pricing/price_adapter.py` lines 19-50)

The adapter is parametrised by the configured fixed-override map, the
stablecoin set and the current cache contents; the DexScreener call
`self._dexscreener.get_pairs(addr)` is modelled by its outcome (a list of
pairs, or the exception the surrounding `try/except` swallows). -/

/-- `DexScreenerPair` (core/dto.py lines 37-49); only `price_usd` and
`liquidity_usd` feed the selection. -/

structure DexScreenerPair where
  chain_id : String := ""
  dex_id : String := ""
  pair_address : String := ""
  base_token : String := ""
  quote_token : String := ""
  price_usd : Option ℚ := none
  liquidity_usd : Option ℚ := none
  volume_24h : Option ℚ := none
  fdv : Option ℚ := none
  market_cap : Option ℚ := none
  pair_created_at : Option ℤ := none
deriving DecidableEq, Repr

/-- `p.liquidity_usd or Decimal("0")`: `None` (and the falsy `0`) become
`0`. -/

def pair_liquidity (p : DexScreenerPair) : ℚ := p.liquidity_usd.getD 0

/-- The selection loop of `get_token_usd_price` (price_adapter.py lines
36-44), with accumulator `(best_price, best_liquidity)` starting at
`(None, Decimal("-1"))`; on `liquidity >= best_liquidity` the current
pair wins (so ties go to the pair seen later). -/

def best_pair_aux : List DexScreenerPair → Option ℚ → ℚ → Option ℚ × ℚ
  | [], bp, bl => (bp, bl)
  | p :: rest, bp, bl =>
    match p.price_usd with
    | none => best_pair_aux rest bp bl
    | some pr =>
      if bl ≤ pair_liquidity p then best_pair_aux rest (some pr) (pair_liquidity p)
      else best_pair_aux rest bp bl

/-- Modelled from the spec (section 4.3, step 4): among the returned
pairs that carry a price, the one with the highest `liquidity_usd`
(absent liquidity treated as 0), ties broken by the pair seen last.
Returns the selected `(price_usd, liquidity)`.  This definition follows
the specification's words; `best_pair_eq_spec` below identifies it with
the adapter's loop. -/

def spec_best_pair : List DexScreenerPair → Option (ℚ × ℚ)
  | [] => none
  | p :: rest =>
    match spec_best_pair rest, p.price_usd with
    | none, none => none
    | none, some pr => some (pr, pair_liquidity p)
    | some (qpr, ql), none => some (qpr, ql)
    | some (qpr, ql), some pr =>
      if ql < pair_liquidity p then some (pr, pair_liquidity p) else some (qpr, ql)

/-- `PriceAdapter.get_token_usd_price` (price_adapter.py lines 19-50).
Returns the price (or `none` for unknown) and the updated cache; the
function is total — the only fallible step, the market-data call, is
wrapped in `try/except` in the source, modelled by matching on
`get_pairs`. -/

def get_token_usd_price (fixed_token_usd : List (String × ℚ))
    (stablecoin_addresses : List String) (price_cache : List (String × ℚ))
    (get_pairs : Except Unit (List DexScreenerPair)) (token_address : String) :
    Option ℚ × List (String × ℚ) :=
  let addr := py_lower token_address
  match fixed_token_usd.lookup addr with
  | some p => (some p, price_cache)
  | none =>
    if addr ∈ stablecoin_addresses then (some 1, price_cache)
    else
      match price_cache.lookup addr with
      | some p => (some p, price_cache)
      | none =>
        match get_pairs with
        | .error _ => (none, price_cache)
        | .ok pairs =>
          match (best_pair_aux pairs none (-1)).1 with
          | some best_price => (some best_price, price_cache ++ [(addr, best_price)])
          | none => (none, price_cache)

/-! ### Retry envelope (`EtherscanChainAdapter._call`,
`src/src/tracer/adapters/chain/etherscan_chain_adapter.py` lines 38-70)

One attempt either raises (any transport/decoding exception, including
`raise_for_status` and `resp.json()`) or produces a JSON body.  The body
is modelled by its `status` and `message` fields (absent fields take the
defaults `"1"` / `"OK"`) plus an opaque tag standing for the rest of the
payload. -/

/-- A provider response body. -/

structure ApiBody where
  status : Option String := none
  message : Option String := none
  result_tag : String := ""
deriving DecidableEq, Repr

/-- `str(data.get("status", "1"))`. -/

def body_status (b : ApiBody) : String := b.status.getD "1"

/-- `str(data.get("message", "OK"))`. -/

def body_message (b : ApiBody) : String := b.message.getD "OK"

/-- `status == "0" and "rate" in message.lower()` (etherscan adapter
line 59). -/

def is_rate_limited_body (b : ApiBody) : Bool :=
  body_status b = "0" ∧ "rate".data <:+: (py_lower (body_message b)).data

/-- The outcome of one attempt of the loop body. -/

inductive AttemptResult where
  | exc : String → AttemptResult
  | resp : ApiBody → AttemptResult
deriving DecidableEq, Repr

/-- The `last_err` recorded by one failed attempt: the raised exception,
or `RateLimitError(message)` for a rate-limit-signalling body; `none`
when the attempt succeeds. -/

def attempt_err : AttemptResult → Option String
  | .exc e => some e
  | .resp b => if is_rate_limited_body b then some (body_message b) else none

/-- The outcome of `_call`: a returned body together with the attempt
indices after which `backoff_sleep(attempt)` ran, or
`DataSourceError(last_err)` after exhausting the loop. -/

inductive CallOutcome where
  | success : ApiBody → List ℕ → CallOutcome
  | data_source_error : Option String → List ℕ → CallOutcome
deriving DecidableEq, Repr

/-- The `for attempt in range(self._max_retries)` loop of `_call`:
`attempt` is the current index, `fuel` the remaining iterations,
`last_err` the last failure, `backoffs` the `backoff_sleep` invocations
so far.  A body that signals rate limiting is never returned; it records
a `RateLimitError` and retries. -/

def call_aux (attempts : ℕ → AttemptResult) :
    ℕ → ℕ → Option String → List ℕ → CallOutcome
  | _, 0, last_err, backoffs => .data_source_error last_err backoffs
  | attempt, fuel + 1, _last_err, backoffs =>
    match attempts attempt with
    | .exc e => call_aux attempts (attempt + 1) fuel (some e) (backoffs ++ [attempt])
    | .resp b =>
      if is_rate_limited_body b then
        call_aux attempts (attempt + 1) fuel (some (body_message b)) (backoffs ++ [attempt])
      else .success b backoffs

/-- `EtherscanChainAdapter._call`, given the outcome of each attempt. -/

def etherscan_call (max_retries : ℕ) (attempts : ℕ → AttemptResult) : CallOutcome :=
  call_aux attempts 0 max_retries none []

/-! ### Derived exception-free form of the engine

With the declared `TraceConfig`, `skip_contract_check` is always `True`,
so no run ever reaches the contract-probing branch of `_ensure_node` —
the only place where `chain.is_contract` is consulted and where a sink
exception could escape.  The following functions are the resulting pure
forms of the engine; the `*_eq` lemmas prove that the faithful embedding
above always succeeds and computes them.  They take only the data the
live code paths consume: in particular neither the sink nor
`is_contract` appears. -/

/-- The context data consumed by the live code paths of the engine. -/

structure PureCtx where
  iter_normal_txs : String → ℤ → ℤ → String → List RawEthTransfer
  iter_erc20_transfers : String → ℤ → ℤ → String → List RawErc20Transfer
  price : PricePort
  cfg : TraceConfig
  start_block : ℤ
  end_block : ℤ

def Ctx.pure (ctx : Ctx) : PureCtx :=
  { iter_normal_txs := ctx.chain.iter_normal_txs
    iter_erc20_transfers := ctx.chain.iter_erc20_transfers
    price := ctx.price
    cfg := ctx.cfg
    start_block := ctx.start_block
    end_block := ctx.end_block }

/-- `_ensure_node` with `skip_contract_check=True`. -/

def node_insert (st : St) (address : String) : St :=
  let addr := py_lower address
  if (st.graph.nodes.lookup addr).isSome then st
  else { st with graph :=
    { st.graph with nodes := st.graph.nodes ++ [(addr, { address := addr, is_contract := false })] } }

def add_one_step (st : St) (e : Edge) : St :=
  if edge_key e ∈ st.seen_edge_keys then st
  else
    let st := { st with
      seen_edge_keys := st.seen_edge_keys ++ [edge_key e],
      graph := { st.graph with edges := st.graph.edges ++ [e] },
      total_edges_added := st.total_edges_added + 1 }
    node_insert (node_insert st e.from_address) e.to_address

def item_step (p : PureCtx) (st : St) (item : HopItem) (rest_count : ℕ)
    (acc : List HopItem) : St × List HopItem × Bool :=
  let addr := py_lower item.address
  let depth := item.depth
  let st := { st with processed := st.processed + 1 }
  if p.cfg.hops < depth then (st, acc, false)
  else if (addr, depth) ∈ st.seen_addr_depth then (st, acc, false)
  else
    let st := { st with seen_addr_depth := st.seen_addr_depth ++ [(addr, depth)] }
    let st := node_insert st addr
    let st := emit st "fetch"
      [("phase", .s "eth"), ("address", .s addr), ("depth", .i depth)]
    let eth_edges := eth_edges_aux p.price (p.iter_normal_txs addr p.start_block p.end_block "asc")
    let st := emit st "fetch_done"
      [("phase", .s "eth"), ("address", .s addr), ("count", .i eth_edges.length)]
    let st := emit st "fetch"
      [("phase", .s "erc20"), ("address", .s addr), ("depth", .i depth)]
    let erc20_edges := erc20_edges_aux p.price false
      (p.iter_erc20_transfers addr p.start_block p.end_block "asc")
    let st := emit st "fetch_done"
      [("phase", .s "erc20"), ("address", .s addr), ("count", .i erc20_edges.length)]
    let new_edges := eth_edges ++ erc20_edges
    let new_edges := apply_min_usd new_edges p.cfg.min_usd
    let new_edges := dedupe_edges new_edges
    let new_edges := rank_edges new_edges
    let new_edges :=
      if 0 < p.cfg.max_edges_per_address then new_edges.take p.cfg.max_edges_per_address
      else new_edges
    let capped : Option (List Edge) :=
      if 0 < p.cfg.max_total_edges then
        let remaining : ℤ := (p.cfg.max_total_edges : ℤ) - (st.total_edges_added : ℤ)
        if remaining ≤ 0 then none else some (new_edges.take remaining.toNat)
      else some new_edges
    match capped with
    | none => (st, acc, true)
    | some new_edges =>
      let st := new_edges.foldl add_one_step st
      let acc :=
        if depth < p.cfg.hops then
          acc ++ (neighbor_addresses addr new_edges).map fun n => HopItem.mk n (depth + 1)
        else acc
      let st := emit st "visit"
        [("address", .s addr), ("depth", .i depth), ("queue", .i (rest_count + acc.length)),
         ("processed", .i st.processed), ("edges", .i st.total_edges_added)]
      (st, acc, false)

def level_step (p : PureCtx) : List HopItem → St → List HopItem → St × List HopItem × Bool
  | [], st, acc => (st, acc, false)
  | item :: rest, st, acc =>
    let r := item_step p st item rest.length acc
    if r.2.2 then (r.1, r.2.1, true)
    else level_step p rest r.1 r.2.1

def go_steps (p : PureCtx) : ℕ → List HopItem → St → St
  | _, [], st => st
  | 0, _ :: _, st => st
  | fuel + 1, level, st =>
    let r := level_step p level st []
    if r.2.2 then r.1
    else go_steps p fuel r.2.1 r.1

/-- The pure form of `trace`: the engine state it always computes. -/

def pure_trace (cfg : TraceConfig) (get_block_number_by_time : ℤ → String → ℤ)
    (iter_normal_txs : String → ℤ → ℤ → String → List RawEthTransfer)
    (iter_erc20_transfers : String → ℤ → ℤ → String → List RawErc20Transfer)
    (price : PricePort) (wall_clock : ℤ) : St :=
  let now_ts : ℤ :=
    match cfg.now_ts with
    | none => wall_clock
    | some r => if r = 0 then wall_clock else r
  let start_ts : ℤ := now_ts - (cfg.days : ℤ) * 24 * 3600
  let st : St := {}
  let st := emit st "start"
    [("address", .s cfg.address), ("days", .i cfg.days), ("hops", .i cfg.hops),
     ("min_usd", .q cfg.min_usd), ("start_ts", .i start_ts), ("now_ts", .i now_ts)]
  let p : PureCtx :=
    { iter_normal_txs := iter_normal_txs, iter_erc20_transfers := iter_erc20_transfers,
      price := price, cfg := cfg,
      start_block := get_block_number_by_time start_ts "after",
      end_block := get_block_number_by_time now_ts "before" }
  let st := go_steps p (cfg.hops + 2) [⟨py_lower cfg.address, 0⟩] st
  emit st "done"
    [("processed", .i st.processed), ("nodes", .i st.graph.nodes.length),
     ("edges", .i st.graph.edges.length), ("contract_checked", .i st.checked),
     ("contract_errors", .i st.errors)]

/-! ### Run invariants

`inv0` collects the structural invariants maintained by every step of the
engine; `inv` adds the total-edges budget.  They are established for
`pure_trace` and transported to `trace` through `trace_eq`. -/

def inv0 (st : St) : Prop :=
  st.total_edges_added = st.graph.edges.length ∧
  (st.graph.edges.map edge_key).Nodup ∧
  (∀ k ∈ st.graph.edges.map edge_key, k ∈ st.seen_edge_keys) ∧
  (∀ e ∈ st.graph.edges,
    (List.lookup e.from_address st.graph.nodes).isSome ∧
    (List.lookup e.to_address st.graph.nodes).isSome) ∧
  st.checked = 0 ∧
  (∀ p ∈ st.graph.nodes, p.2.is_contract = false)

def inv (cfg : TraceConfig) (st : St) : Prop :=
  inv0 st ∧ (0 < cfg.max_total_edges → st.total_edges_added ≤ cfg.max_total_edges)

/-- Edges produced by the builders carry canonical (lowercased)
endpoints. -/

def LoweredEdge (e : Edge) : Prop :=
  py_lower e.from_address = e.from_address ∧ py_lower e.to_address = e.to_address

/-! ### Concrete fixtures used by witnesses and counterexamples -/

/-- A pricing port with a constant native price and no token prices. -/

def null_price : PricePort :=
  { get_eth_usd_price := fun _ => 3000
    get_token_usd_price := fun _ _ => none }

/-- A chain port with no transfers. -/

def empty_chain : ChainDataPort :=
  { get_block_number_by_time := fun _ _ => 0
    iter_normal_txs := fun _ _ _ _ => []
    iter_erc20_transfers := fun _ _ _ _ => []
    is_contract := fun _ => .ok false }

/-- A configuration with a total-edges budget of one. -/

def w3_cfg : TraceConfig :=
  { address := "0xAbCd", days := 1, hops := 1, min_usd := 0, now_ts := some 1000,
    max_edges_per_address := 0, max_total_edges := 1 }

/-- The kept-edge predicate of the `min_usd` filter: unknown `usd_value`
is retained, known values must reach `min_usd`. -/

def min_usd_keep (min_usd : ℚ) (e : Edge) : Bool :=
  match e.usd_value with
  | none => true
  | some v => decide (min_usd ≤ v)

/-- A test edge for witnesses. -/

def w_edge (tx : String) (usd : Option ℚ) : Edge :=
  { from_address := "0xa", to_address := "0xb", tx_hash := tx, timestamp := 0,
    asset_type := "ETH", token_address := none, symbol := some "ETH",
    amount := 1, usd_value := usd }

/-! ### Claim C8: the rank step

`list.sort(key=self._edge_sort_key, reverse=True)` is a stable descending
sort; the embedding `rank_edges` is proven to be sorted descending by
`edge_sort_key` (unknown `usd_value` ranking as `-1`), a permutation of
its input, and stable: for every key value, the edges carrying that key
appear in the output in exactly their input order. -/

instance : IsTotal Edge edge_ge :=
  ⟨fun a b => le_total (edge_sort_key b) (edge_sort_key a)⟩

instance : IsTrans Edge edge_ge :=
  ⟨fun _ _ _ hab hbc => le_trans hbc hab⟩

/-- A priced pair whose liquidity lies below the loop's `-1` sentinel. -/

def cex_pair : DexScreenerPair := { price_usd := some 7, liquidity_usd := some (-2) }

/-- Attempt outcomes for the retry witness: a transport exception, then
a rate-limiting body. -/

def w9_attempts : ℕ → AttemptResult := fun i =>
  if i = 0 then .exc "connection reset"
  else .resp { status := some "0", message := some "Max rate limit reached", result_tag := "" }

/-- A native transfer whose value in wei has 29 significant digits. -/

def cex_eth_tx : RawEthTransfer :=
  { tx_hash := "0xbig", block_number := 1, timestamp := 0,
    from_address := "0xa", to_address := "0xb", value_wei := 10 ^ 28 + 1 }

/-- A native transfer of 500 wei and a token transfer of 12345 raw units
with 2 decimals. -/

def w5_eth_tx : RawEthTransfer :=
  { tx_hash := "0xsmall", block_number := 1, timestamp := 0,
    from_address := "0xa", to_address := "0xb", value_wei := 500 }

def w5_erc20_tx : RawErc20Transfer :=
  { tx_hash := "0xtok", block_number := 1, timestamp := 0,
    from_address := "0xa", to_address := "0xb", token_address := "0xTok",
    value_raw := 12345, token_symbol := some "TKN", token_decimals := some 2 }

theorem digits10_aux_spec :
    ∀ (fuel n : ℕ), 0 < n → n ≤ fuel →
      10 ^ (digits10_aux fuel n - 1) ≤ n ∧ n < 10 ^ digits10_aux fuel n := by
  intro fuel
  induction fuel with
  | zero => intro n h1 h2 ; omega
  | succ f ih =>
    intro n h1 h2
    by_cases hsmall : n < 10
    · simp only [digits10_aux, if_pos hsmall]
      constructor
      · simpa using h1
      · simpa using hsmall
    · simp only [digits10_aux, if_neg hsmall]
      have hm1 : 0 < n / 10 := Nat.div_pos (by omega) (by omega)
      have hm2 : n / 10 ≤ f := by
        have := Nat.div_lt_self (show 0 < n by omega) (show 1 < 10 by omega)
        omega
      obtain ⟨hlo, hhi⟩ := ih (n / 10) hm1 hm2
      constructor
      · have : 10 ^ (digits10_aux f (n / 10)) ≤ 10 * (n / 10) := by
          have h10 : 10 ^ digits10_aux f (n / 10) =
              10 * 10 ^ (digits10_aux f (n / 10) - 1) := by
            have hpos : 0 < digits10_aux f (n / 10) := by
              cases f with
      | zero => simp [digits10_aux]
      | succ g =>
        simp only [digits10_aux]
        split <;> omega
            rw [← pow_succ']
            congr 1
            omega
          rw [h10]
          exact Nat.mul_le_mul_left 10 hlo
        calc 10 ^ (digits10_aux f (n / 10) + 1 - 1) = 10 ^ digits10_aux f (n / 10) := by
              congr 1
          _ ≤ 10 * (n / 10) := this
          _ ≤ n := Nat.mul_div_le n 10
      · have : n < 10 * 10 ^ digits10_aux f (n / 10) := by
          have hstep : n < (n / 10 + 1) * 10 := by
            have h1 := Nat.div_add_mod n 10
            have h2 := Nat.mod_lt n (show 0 < 10 by omega)
            omega
          calc n < (n / 10 + 1) * 10 := hstep
            _ ≤ 10 ^ digits10_aux f (n / 10) * 10 := by
                have : n / 10 + 1 ≤ 10 ^ digits10_aux f (n / 10) := by omega
                exact Nat.mul_le_mul_right 10 this
            _ = 10 * 10 ^ digits10_aux f (n / 10) := by ring
        calc n < 10 * 10 ^ digits10_aux f (n / 10) := this
          _ = 10 ^ (digits10_aux f (n / 10) + 1) := (pow_succ' 10 _).symm

theorem digits10_spec (n : ℕ) (h : 0 < n) :
    10 ^ (digits10 n - 1) ≤ n ∧ n < 10 ^ digits10 n :=
  digits10_aux_spec n n h le_rfl

/-- A value with at most 28 significant digits divides exactly. -/

theorem dec_div_pow10_nat_exact (v d : ℕ) (h : digits10 v ≤ DECIMAL_PREC) :
    dec_div_pow10_nat v d = (v : ℚ) / 10 ^ d := by
  unfold dec_div_pow10_nat
  split
  · rename_i hv
    subst hv
    simp
  · simp [h]

theorem digits10_le_of_lt (v : ℕ) (h : v < 10 ^ DECIMAL_PREC) :
    digits10 v ≤ DECIMAL_PREC := by
  rcases Nat.eq_zero_or_pos v with hv | hv
  · subst hv
    simp [digits10, digits10_aux, DECIMAL_PREC]
  · by_contra hgt
    have hlo := (digits10_spec v hv).1
    have : 10 ^ DECIMAL_PREC ≤ 10 ^ (digits10 v - 1) :=
      Nat.pow_le_pow_right (by omega) (by omega)
    omega

theorem toNat_ofNat_of_valid {n : ℕ} (h : Nat.isValidChar n) :
    (Char.ofNat n).toNat = n := by
  rw [Char.ofNat, dif_pos h]
  rfl

theorem char_toLower_idem (c : Char) : c.toLower.toLower = c.toLower := by
  unfold Char.toLower
  by_cases h : c.toNat ≥ 65 ∧ c.toNat ≤ 90
  · rw [if_pos h]
    have hvalid : Nat.isValidChar (c.toNat + 32) := Or.inl (by omega)
    have htn : (Char.ofNat (c.toNat + 32)).toNat = c.toNat + 32 :=
      toNat_ofNat_of_valid hvalid
    rw [if_neg]
    rw [htn]
    omega
  · rw [if_neg h, if_neg h]

theorem py_lower_idem (s : String) : py_lower (py_lower s) = py_lower s := by
  unfold py_lower
  simp [List.map_map, Function.comp_def, char_toLower_idem]

theorem ensure_node_true_eq (ctx : Ctx) (st : St) (address : String) :
    ensure_node ctx st address true = .ok (node_insert st address) := by
  unfold ensure_node node_insert
  by_cases h : (List.lookup (py_lower address) st.graph.nodes).isSome = true
  · simp only [h, if_true]
  · simp only [h, if_false, Bool.false_eq_true, if_true]

theorem add_one_edge_eq (ctx : Ctx) (st : St) (e : Edge) :
    add_one_edge ctx st e = .ok (add_one_step st e) := by
  unfold add_one_edge add_one_step
  by_cases h : edge_key e ∈ st.seen_edge_keys
  · simp only [h, if_true]
  · simp only [h, if_false, cfg_skip_contract_check, ensure_node_true_eq]
    rfl

theorem add_edges_eq (ctx : Ctx) (st : St) (edges : List Edge) :
    add_edges ctx st edges = .ok (edges.foldl add_one_step st) := by
  induction edges generalizing st with
  | nil => rfl
  | cons e rest ih =>
    show (do
      let st ← add_one_edge ctx st e
      add_edges ctx st rest) = _
    rw [add_one_edge_eq]
    show add_edges ctx (add_one_step st e) rest = _
    rw [ih, List.foldl_cons]

theorem except_ok_bind {ε α β : Type} (a : α) (f : α → Except ε β) :
    ((Except.ok a : Except ε α) >>= f) = f a := rfl

theorem process_item_eq (ctx : Ctx) (st : St) (item : HopItem) (rest_count : ℕ)
    (acc : List HopItem) :
    process_item ctx st item rest_count acc = .ok (item_step ctx.pure st item rest_count acc) := by
  unfold process_item item_step
  simp only [cfg_skip_contract_check, cfg_ignore_unknown_price, ensure_node_true_eq,
    add_edges_eq, eth_edges_for, erc20_edges_for, Ctx.pure, except_ok_bind]
  split_ifs <;> rfl

theorem run_level_eq (ctx : Ctx) (level : List HopItem) (st : St) (acc : List HopItem) :
    run_level ctx level st acc = .ok (level_step ctx.pure level st acc) := by
  induction level generalizing st acc with
  | nil => rfl
  | cons item rest ih =>
    unfold run_level level_step
    rcases hr : item_step ctx.pure st item rest.length acc with ⟨st', acc', broke⟩
    simp only [process_item_eq, hr]
    show (if broke then _ else _) = _
    cases broke with
    | true => rfl
    | false =>
      show run_level ctx rest st' acc' = _
      rw [ih]
      rfl

theorem trace_go_eq (ctx : Ctx) (fuel : ℕ) (level : List HopItem) (st : St) :
    trace_go ctx fuel level st = .ok (go_steps ctx.pure fuel level st) := by
  induction fuel generalizing level st with
  | zero =>
    cases level with
    | nil => rfl
    | cons a rest => rfl
  | succ f ih =>
    cases level with
    | nil => rfl
    | cons a rest =>
      unfold trace_go go_steps
      rcases hr : level_step ctx.pure (a :: rest) st [] with ⟨st', next, broke⟩
      simp only [run_level_eq, hr]
      show (if broke then _ else _) = _
      cases broke with
      | true => rfl
      | false =>
        show trace_go ctx f next st' = _
        rw [ih]
        rfl

/-- `trace` never raises: it always computes `pure_trace`, which consults
neither the sink nor `chain.is_contract`. -/

theorem trace_eq (cfg : TraceConfig) (chain : ChainDataPort) (price : PricePort)
    (wall_clock : ℤ) (sink : Option Sink) :
    trace cfg chain price wall_clock sink =
      .ok (pure_trace cfg chain.get_block_number_by_time chain.iter_normal_txs
        chain.iter_erc20_transfers price wall_clock) := by
  unfold trace pure_trace
  simp only [trace_go_eq, except_ok_bind, Ctx.pure]

theorem lookup_append_left {α β : Type} [BEq α] (l l' : List (α × β)) (x : α)
    (h : (List.lookup x l).isSome) :
    List.lookup x (l ++ l') = List.lookup x l := by
  induction l with
  | nil => simp [List.lookup] at h
  | cons p t ih =>
    rcases p with ⟨k, v⟩
    by_cases hk : x == k
    · simp [List.lookup, hk]
    · simp only [List.lookup, hk, cond_false] at h
      simp only [List.cons_append, List.lookup, hk, cond_false]
      exact ih h

theorem lookup_isSome_append {α β : Type} [BEq α] (l l' : List (α × β)) (x : α)
    (h : (List.lookup x l).isSome) : (List.lookup x (l ++ l')).isSome := by
  rw [lookup_append_left l l' x h]
  exact h

theorem lookup_append_self {α β : Type} [BEq α] [LawfulBEq α] (l : List (α × β))
    (a : α) (b : β) : (List.lookup a (l ++ [(a, b)])).isSome := by
  induction l with
  | nil => simp [List.lookup]
  | cons p t ih =>
    rcases p with ⟨k, v⟩
    by_cases hk : a == k
    · simp [List.lookup, hk]
    · simpa only [List.cons_append, List.lookup, hk, cond_false] using ih

theorem node_insert_graph_edges (st : St) (a : String) :
    (node_insert st a).graph.edges = st.graph.edges := by
  by_cases h : (List.lookup (py_lower a) st.graph.nodes).isSome = true <;>
    simp [node_insert, h]

theorem node_insert_untouched (st : St) (a : String) :
    (node_insert st a).seen_edge_keys = st.seen_edge_keys ∧
    (node_insert st a).total_edges_added = st.total_edges_added ∧
    (node_insert st a).checked = st.checked := by
  by_cases h : (List.lookup (py_lower a) st.graph.nodes).isSome = true <;>
    simp [node_insert, h]

theorem node_insert_lookup_mono (st : St) (a x : String)
    (h : (List.lookup x st.graph.nodes).isSome) :
    (List.lookup x (node_insert st a).graph.nodes).isSome := by
  by_cases hc : (List.lookup (py_lower a) st.graph.nodes).isSome = true
  · simpa [node_insert, hc] using h
  · simp only [node_insert, hc, if_false]
    exact lookup_isSome_append _ _ _ h

theorem node_insert_lookup_self (st : St) (a : String) :
    (List.lookup (py_lower a) (node_insert st a).graph.nodes).isSome := by
  by_cases hc : (List.lookup (py_lower a) st.graph.nodes).isSome = true
  · simpa [node_insert, hc] using hc
  · simp only [node_insert, hc, if_false]
    exact lookup_append_self _ _ _

theorem node_insert_nodes_false (st : St) (a : String)
    (h : ∀ p ∈ st.graph.nodes, p.2.is_contract = false) :
    ∀ p ∈ (node_insert st a).graph.nodes, p.2.is_contract = false := by
  by_cases hc : (List.lookup (py_lower a) st.graph.nodes).isSome = true
  · simpa [node_insert, hc] using h
  · simp only [node_insert, hc, if_false]
    intro p hp
    rcases List.mem_append.mp hp with hp | hp
    · exact h p hp
    · simp at hp
      subst hp
      rfl

theorem node_insert_inv0 (st : St) (a : String) (h : inv0 st) :
    inv0 (node_insert st a) := by
  obtain ⟨h1, h2, h3, h4, h5, h6⟩ := h
  obtain ⟨hk, ht, hc⟩ := node_insert_untouched st a
  refine ⟨?_, ?_, ?_, ?_, ?_, node_insert_nodes_false st a h6⟩
  · rw [ht, node_insert_graph_edges, h1]
  · rw [node_insert_graph_edges]
    exact h2
  · rw [node_insert_graph_edges, hk]
    exact h3
  · intro e he
    rw [node_insert_graph_edges] at he
    exact ⟨node_insert_lookup_mono st a _ (h4 e he).1,
      node_insert_lookup_mono st a _ (h4 e he).2⟩
  · rw [hc]
    exact h5

theorem add_one_step_inv0 (st : St) (e : Edge) (hl : LoweredEdge e) (h : inv0 st) :
    inv0 (add_one_step st e) ∧
      st.total_edges_added ≤ (add_one_step st e).total_edges_added ∧
      (add_one_step st e).total_edges_added ≤ st.total_edges_added + 1 := by
  unfold add_one_step
  split
  · exact ⟨h, le_rfl, by omega⟩
  · rename_i hnot
    obtain ⟨h1, h2, h3, h4, h5, h6⟩ := h
    set st1 : St := { st with
      seen_edge_keys := st.seen_edge_keys ++ [edge_key e],
      graph := { st.graph with edges := st.graph.edges ++ [e] },
      total_edges_added := st.total_edges_added + 1 } with hst1
    set stF : St := node_insert st1 e.from_address with hstF
    set stT : St := node_insert stF e.to_address with hstT
    have hedges : stT.graph.edges = st.graph.edges ++ [e] := by
      rw [hstT, node_insert_graph_edges, hstF, node_insert_graph_edges]
    have hkeys : stT.seen_edge_keys = st.seen_edge_keys ++ [edge_key e] := by
      rw [hstT, (node_insert_untouched stF _).1, hstF, (node_insert_untouched st1 _).1]
    have htotal : stT.total_edges_added = st.total_edges_added + 1 := by
      rw [hstT, (node_insert_untouched stF _).2.1, hstF, (node_insert_untouched st1 _).2.1]
    have hchecked : stT.checked = st.checked := by
      rw [hstT, (node_insert_untouched stF _).2.2, hstF, (node_insert_untouched st1 _).2.2]
    refine ⟨⟨?_, ?_, ?_, ?_, ?_, ?_⟩, ?_, ?_⟩
    · rw [htotal, hedges, h1, List.length_append, List.length_singleton]
    · rw [hedges, List.map_append, List.map_cons, List.map_nil]
      rw [List.nodup_append]
      refine ⟨h2, List.nodup_singleton _, ?_⟩
      intro k hk hk'
      simp at hk'
      subst hk'
      exact hnot (h3 _ hk)
    · intro k hk
      rw [hedges] at hk
      rw [hkeys]
      simp only [List.map_append, List.map_cons, List.map_nil] at hk
      rcases List.mem_append.mp hk with hk | hk
      · exact List.mem_append.mpr (Or.inl (h3 _ hk))
      · simp at hk
        subst hk
        exact List.mem_append.mpr (Or.inr (by simp))
    · intro e' he'
      rw [hedges] at he'
      rcases List.mem_append.mp he' with he' | he'
      · have hfrom := (h4 e' he').1
        have hto := (h4 e' he').2
        have hnodes1 : st1.graph.nodes = st.graph.nodes := rfl
        constructor
        · exact node_insert_lookup_mono stF _ _
            (node_insert_lookup_mono st1 _ _ (hnodes1 ▸ hfrom))
        · exact node_insert_lookup_mono stF _ _
            (node_insert_lookup_mono st1 _ _ (hnodes1 ▸ hto))
      · simp at he'
        rw [he']
        constructor
        · have hself : (List.lookup (py_lower e.from_address) stF.graph.nodes).isSome :=
            node_insert_lookup_self st1 e.from_address
          rw [hl.1] at hself
          exact node_insert_lookup_mono stF _ _ hself
        · have hself : (List.lookup (py_lower e.to_address) stT.graph.nodes).isSome :=
            node_insert_lookup_self stF e.to_address
          rw [hl.2] at hself
          exact hself
    · rw [hchecked]
      exact h5
    · have hn1 : ∀ p ∈ st1.graph.nodes, p.2.is_contract = false := h6
      exact node_insert_nodes_false stF _ (node_insert_nodes_false st1 _ hn1)
    · omega
    · omega

theorem add_steps_inv0 (l : List Edge) (st : St)
    (hl : ∀ e ∈ l, LoweredEdge e) (h : inv0 st) :
    inv0 (l.foldl add_one_step st) ∧
      (l.foldl add_one_step st).total_edges_added ≤ st.total_edges_added + l.length := by
  induction l generalizing st with
  | nil => exact ⟨h, by simp⟩
  | cons e rest ih =>
    rw [List.foldl_cons]
    obtain ⟨hi, _hlo, hhi⟩ := add_one_step_inv0 st e (hl e (by simp)) h
    obtain ⟨hi', hb⟩ := ih (add_one_step st e) (fun x hx => hl x (by simp [hx])) hi
    refine ⟨hi', ?_⟩
    simp only [List.length_cons]
    omega

theorem eth_edges_aux_lowered (pr : PricePort) (txs : List RawEthTransfer) :
    ∀ e ∈ eth_edges_aux pr txs, LoweredEdge e := by
  induction txs with
  | nil => simp [eth_edges_aux]
  | cons tx rest ih =>
    intro e he
    unfold eth_edges_aux at he
    split at he
    · exact ih e he
    · rcases List.mem_cons.mp he with he | he
      · subst he
        exact ⟨py_lower_idem _, py_lower_idem _⟩
      · exact ih e he

theorem erc20_edges_aux_lowered (pr : PricePort) (ign : Bool)
    (txs : List RawErc20Transfer) :
    ∀ e ∈ erc20_edges_aux pr ign txs, LoweredEdge e := by
  induction txs with
  | nil => simp [erc20_edges_aux]
  | cons tx rest ih =>
    intro e he
    unfold erc20_edges_aux at he
    split at he
    · exact ih e he
    · rcases List.mem_cons.mp he with he | he
      · subst he
        exact ⟨py_lower_idem _, py_lower_idem _⟩
      · exact ih e he

theorem keep_min_usd_subset (m : ℚ) :
    ∀ (l : List Edge), ∀ e ∈ keep_min_usd m l, e ∈ l := by
  intro l
  induction l with
  | nil => simp [keep_min_usd]
  | cons x rest ih =>
    intro e he
    rcases hu : x.usd_value with _ | v
    · simp only [keep_min_usd, hu] at he
      rcases List.mem_cons.mp he with he | he
      · exact he ▸ List.mem_cons_self x rest
      · exact List.mem_cons_of_mem x (ih e he)
    · simp only [keep_min_usd, hu] at he
      by_cases hm : m ≤ v
      · rw [if_pos hm] at he
        rcases List.mem_cons.mp he with he | he
        · exact he ▸ List.mem_cons_self x rest
        · exact List.mem_cons_of_mem x (ih e he)
      · rw [if_neg hm] at he
        exact List.mem_cons_of_mem x (ih e he)

theorem apply_min_usd_subset (l : List Edge) (m : ℚ) :
    ∀ e ∈ apply_min_usd l m, e ∈ l := by
  unfold apply_min_usd
  split
  · exact fun e he => he
  · exact keep_min_usd_subset m l

theorem dedupe_edges_aux_subset :
    ∀ (l : List Edge) (seen : List (String × String × String × String × Option String)),
      ∀ e ∈ dedupe_edges_aux seen l, e ∈ l := by
  intro l
  induction l with
  | nil => simp [dedupe_edges_aux]
  | cons x rest ih =>
    intro seen e he
    unfold dedupe_edges_aux at he
    split at he
    · exact List.mem_cons_of_mem x (ih seen e he)
    · rcases List.mem_cons.mp he with he | he
      · exact he ▸ List.mem_cons_self x rest
      · exact List.mem_cons_of_mem x (ih _ e he)

theorem rank_edges_mem (e : Edge) (l : List Edge) : e ∈ rank_edges l ↔ e ∈ l := by
  unfold rank_edges
  exact List.mem_insertionSort edge_ge

/-- Every edge that reaches the append loop of `trace` has canonical
endpoints. -/

theorem pipeline_lowered (pr : PricePort) (txs1 : List RawEthTransfer)
    (txs2 : List RawErc20Transfer) (ign : Bool) (m : ℚ) :
    ∀ e ∈ rank_edges (dedupe_edges
        (apply_min_usd (eth_edges_aux pr txs1 ++ erc20_edges_aux pr ign txs2) m)),
      LoweredEdge e := by
  intro e he
  have h1 := (rank_edges_mem e _).mp he
  have h2 := dedupe_edges_aux_subset _ _ e h1
  have h3 := apply_min_usd_subset _ _ e h2
  rcases List.mem_append.mp h3 with h4 | h4
  · exact eth_edges_aux_lowered pr txs1 e h4
  · exact erc20_edges_aux_lowered pr ign txs2 e h4

theorem node_insert_total (st : St) (a : String) :
    (node_insert st a).total_edges_added = st.total_edges_added :=
  (node_insert_untouched st a).2.1

theorem emit_total (st : St) (n : String) (pl : List (String × PVal)) :
    (emit st n pl).total_edges_added = st.total_edges_added := rfl

theorem inv0_emit (st : St) (n : String) (pl : List (String × PVal)) :
    inv0 (emit st n pl) ↔ inv0 st := Iff.rfl

set_option maxHeartbeats 1000000 in

theorem item_step_inv (p : PureCtx) (st : St) (item : HopItem) (rc : ℕ)
    (acc : List HopItem) (st' : St) (acc' : List HopItem) (broke : Bool)
    (heq : item_step p st item rc acc = (st', acc', broke)) (h : inv p.cfg st) :
    inv p.cfg st' := by
  simp only [item_step] at heq
  by_cases h1 : p.cfg.hops < item.depth
  · rw [if_pos h1] at heq
    simp only [Prod.mk.injEq] at heq
    obtain ⟨h1', -, -⟩ := heq
    subst h1'
    exact h
  · rw [if_neg h1] at heq
    by_cases h2 : (py_lower item.address, item.depth) ∈ st.seen_addr_depth
    · rw [if_pos h2] at heq
      simp only [Prod.mk.injEq] at heq
      obtain ⟨h2', -, -⟩ := heq
      subst h2'
      exact h
    · rw [if_neg h2] at heq
      set X : St := { st with
        processed := st.processed + 1,
        seen_addr_depth := st.seen_addr_depth ++ [(py_lower item.address, item.depth)] }
        with hX
      set S : St := node_insert X (py_lower item.address) with hS
      have hSinv : inv0 S := node_insert_inv0 X _ h.1
      have hStot : S.total_edges_added = st.total_edges_added := node_insert_total X _
      set B : List Edge := rank_edges (dedupe_edges (apply_min_usd
        (eth_edges_aux p.price
          (p.iter_normal_txs (py_lower item.address) p.start_block p.end_block "asc") ++
         erc20_edges_aux p.price false
          (p.iter_erc20_transfers (py_lower item.address) p.start_block p.end_block "asc"))
        p.cfg.min_usd)) with hB
      have hBlow : ∀ e ∈ B, LoweredEdge e := by
        rw [hB]
        exact pipeline_lowered _ _ _ _ _
      set PB : List Edge :=
        if 0 < p.cfg.max_edges_per_address then List.take p.cfg.max_edges_per_address B else B
        with hPB
      have hPBlow : ∀ e ∈ PB, LoweredEdge e := by
        rw [hPB]
        by_cases hper : 0 < p.cfg.max_edges_per_address
        · rw [if_pos hper]
          exact fun e he => hBlow e (List.take_subset _ _ he)
        · rw [if_neg hper]
          exact hBlow
      set E : St := emit (emit (emit (emit S "fetch"
          [("phase", PVal.s "eth"), ("address", PVal.s (py_lower item.address)),
           ("depth", PVal.i (item.depth : ℤ))])
        "fetch_done"
          [("phase", PVal.s "eth"), ("address", PVal.s (py_lower item.address)),
           ("count", PVal.i ((eth_edges_aux p.price
             (p.iter_normal_txs (py_lower item.address) p.start_block p.end_block
               "asc")).length : ℤ))])
        "fetch"
          [("phase", PVal.s "erc20"), ("address", PVal.s (py_lower item.address)),
           ("depth", PVal.i (item.depth : ℤ))])
        "fetch_done"
          [("phase", PVal.s "erc20"), ("address", PVal.s (py_lower item.address)),
           ("count", PVal.i ((erc20_edges_aux p.price false
             (p.iter_erc20_transfers (py_lower item.address) p.start_block p.end_block
               "asc")).length : ℤ))]
        with hE
      have hEinv : inv0 E := hSinv
      have hEtot : E.total_edges_added = st.total_edges_added := hStot
      by_cases hmax : 0 < p.cfg.max_total_edges
      · rw [if_pos hmax] at heq
        by_cases hrem : (p.cfg.max_total_edges : ℤ) - (E.total_edges_added : ℤ) ≤ 0
        · rw [if_pos hrem] at heq
          simp only [Prod.mk.injEq] at heq
          obtain ⟨h3, -, -⟩ := heq
          subst h3
          refine ⟨hEinv, ?_⟩
          intro hpos
          rw [hEtot]
          exact h.2 hpos
        · rw [if_neg hrem] at heq
          simp only [Prod.mk.injEq] at heq
          obtain ⟨h3, -, -⟩ := heq
          subst h3
          refine ⟨?_, ?_⟩
          · rw [inv0_emit]
            exact (add_steps_inv0 _ _ (fun e he => hPBlow e (List.take_subset _ _ he)) hEinv).1
          · intro _hpos
            rw [emit_total]
            refine le_trans
              ((add_steps_inv0 _ _ (fun e he => hPBlow e (List.take_subset _ _ he)) hEinv).2) ?_
            have hlen := List.length_take_le
              ((p.cfg.max_total_edges : ℤ) - (E.total_edges_added : ℤ)).toNat PB
            rw [hEtot] at hlen ⊢
            rw [hEtot] at hrem
            omega
      · rw [if_neg hmax] at heq
        simp only [Prod.mk.injEq] at heq
        obtain ⟨h3, -, -⟩ := heq
        subst h3
        refine ⟨?_, ?_⟩
        · rw [inv0_emit]
          exact (add_steps_inv0 _ _ hPBlow hEinv).1
        · exact fun hpos => absurd hpos hmax

theorem level_step_inv (p : PureCtx) :
    ∀ (level : List HopItem) (st : St) (acc : List HopItem), inv p.cfg st →
      inv p.cfg (level_step p level st acc).1 := by
  intro level
  induction level with
  | nil => exact fun st acc h => h
  | cons item rest ih =>
    intro st acc h
    unfold level_step
    rcases hr : item_step p st item rest.length acc with ⟨st', acc', broke⟩
    have h' : inv p.cfg st' := item_step_inv p st item rest.length acc st' acc' broke hr h
    cases broke with
    | true => simpa [hr] using h'
    | false => simpa [hr] using ih st' acc' h'

theorem go_steps_inv (p : PureCtx) :
    ∀ (fuel : ℕ) (level : List HopItem) (st : St), inv p.cfg st →
      inv p.cfg (go_steps p fuel level st) := by
  intro fuel
  induction fuel with
  | zero =>
    intro level st h
    cases level with
    | nil => exact h
    | cons a rest => exact h
  | succ f ih =>
    intro level st h
    cases level with
    | nil => exact h
    | cons a rest =>
      unfold go_steps
      rcases hr : level_step p (a :: rest) st [] with ⟨st', next, broke⟩
      have h' : inv p.cfg st' := by
        have := level_step_inv p (a :: rest) st [] h
        rw [hr] at this
        exact this
      cases broke with
      | true => simpa [hr] using h'
      | false => simpa [hr] using ih next st' h'

theorem pure_trace_inv (cfg : TraceConfig) (gbt : ℤ → String → ℤ)
    (itn : String → ℤ → ℤ → String → List RawEthTransfer)
    (ite : String → ℤ → ℤ → String → List RawErc20Transfer)
    (pr : PricePort) (w : ℤ) :
    inv cfg (pure_trace cfg gbt itn ite pr w) := by
  unfold pure_trace
  have h0 : inv cfg
      (emit {} "start"
        [("address", .s cfg.address), ("days", .i cfg.days), ("hops", .i cfg.hops),
         ("min_usd", .q cfg.min_usd),
         ("start_ts", .i ((match cfg.now_ts with
            | none => w
            | some r => if r = 0 then w else r) - (cfg.days : ℤ) * 24 * 3600)),
         ("now_ts", .i (match cfg.now_ts with
            | none => w
            | some r => if r = 0 then w else r))]) := by
    refine ⟨⟨rfl, ?_, ?_, ?_, rfl, ?_⟩, ?_⟩ <;> simp [emit, St.graph]
  exact go_steps_inv _ _ _ _ h0

theorem trace_graph_eq (cfg : TraceConfig) (chain : ChainDataPort) (price : PricePort)
    (wall_clock : ℤ) (sink : Option Sink) :
    trace_graph cfg chain price wall_clock sink =
      (pure_trace cfg chain.get_block_number_by_time chain.iter_normal_txs
        chain.iter_erc20_transfers price wall_clock).graph := by
  unfold trace_graph
  rw [trace_eq]

theorem trace_checked_eq (cfg : TraceConfig) (chain : ChainDataPort) (price : PricePort)
    (wall_clock : ℤ) (sink : Option Sink) :
    trace_checked cfg chain price wall_clock sink =
      (pure_trace cfg chain.get_block_number_by_time chain.iter_normal_txs
        chain.iter_erc20_transfers price wall_clock).checked := by
  unfold trace_checked
  rw [trace_eq]

/-- Claim C1: for every configuration and every chain/pricing port, the
graph returned by `TracerService.trace` contains no two distinct edges
with the same composite key
`(tx_hash, from_address, to_address, asset_type, token_address)` — even
when the same transfer is discoverable from both endpoints across hops,
the global `seen_edge_keys` set admits each key at most once. -/

theorem c1_no_duplicate_edge_keys (cfg : TraceConfig) (chain : ChainDataPort)
    (price : PricePort) (wall_clock : ℤ) (sink : Option Sink) :
    ((trace_graph cfg chain price wall_clock sink).edges.map edge_key).Nodup := by
  rw [trace_graph_eq]
  exact (pure_trace_inv cfg chain.get_block_number_by_time chain.iter_normal_txs
    chain.iter_erc20_transfers price wall_clock).1.2.1

/-- Claim C2: for every graph returned by `TracerService.trace`, every
edge's `from_address` and `to_address` is present as a key in
`Graph.nodes`. -/

theorem c2_edge_endpoints_in_nodes (cfg : TraceConfig) (chain : ChainDataPort)
    (price : PricePort) (wall_clock : ℤ) (sink : Option Sink) :
    ((trace_graph cfg chain price wall_clock sink).edges.all fun e =>
      (List.lookup e.from_address (trace_graph cfg chain price wall_clock sink).nodes).isSome &&
      (List.lookup e.to_address (trace_graph cfg chain price wall_clock sink).nodes).isSome) =
      true := by
  rw [trace_graph_eq]
  rw [List.all_eq_true]
  intro e he
  have h := (pure_trace_inv cfg chain.get_block_number_by_time chain.iter_normal_txs
    chain.iter_erc20_transfers price wall_clock).1.2.2.2.1 e he
  rw [Bool.and_eq_true]
  exact h

/-- Claim C3: for every run with `max_total_edges > 0`, the returned
graph contains at most `max_total_edges` edges (the engine computes
`remaining`, breaks out when it is exhausted, and truncates each batch to
it otherwise). -/

theorem c3_total_edges_cap (cfg : TraceConfig) (chain : ChainDataPort)
    (price : PricePort) (wall_clock : ℤ) (sink : Option Sink)
    (hpos : 0 < cfg.max_total_edges) :
    (trace_graph cfg chain price wall_clock sink).edges.length ≤ cfg.max_total_edges := by
  rw [trace_graph_eq]
  have h := pure_trace_inv cfg chain.get_block_number_by_time chain.iter_normal_txs
    chain.iter_erc20_transfers price wall_clock
  have h1 := h.1.1
  have h2 := h.2 hpos
  omega

theorem c3_total_edges_cap_witness :
    0 < w3_cfg.max_total_edges ∧
      (trace_graph w3_cfg empty_chain null_price 0 none).edges.length ≤
        w3_cfg.max_total_edges :=
  ⟨by decide, c3_total_edges_cap w3_cfg empty_chain null_price 0 none (by decide)⟩

/-- Claim C6: the engine swallows progress-sink exceptions: `trace`
always returns a graph (never propagates a sink exception) and the graph
it returns is independent of the sink — in particular equal to the one a
non-raising sink produces. -/

theorem c6_sink_exceptions_swallowed (cfg : TraceConfig) (chain : ChainDataPort)
    (price : PricePort) (wall_clock : ℤ) (sink other_sink : Option Sink) :
    (∃ res, trace cfg chain price wall_clock sink = Except.ok res) ∧
      trace cfg chain price wall_clock sink = trace cfg chain price wall_clock other_sink := by
  constructor
  · exact ⟨_, trace_eq cfg chain price wall_clock sink⟩
  · rw [trace_eq, trace_eq]

/-- Claim C10: with the declared `TraceConfig` (which has no
`skip_contract_check` field) the `getattr` default `True` suppresses
contract probing entirely: the run is unchanged when `chain.is_contract`
is replaced by any function, the probe counter stays at zero, and every
node carries `is_contract = false`. -/

theorem c10_contract_checking_suppressed (cfg : TraceConfig) (chain : ChainDataPort)
    (price : PricePort) (wall_clock : ℤ) (sink : Option Sink)
    (f : String → Except Unit Bool) :
    trace cfg { chain with is_contract := f } price wall_clock sink =
        trace cfg chain price wall_clock sink ∧
      trace_checked cfg chain price wall_clock sink = 0 ∧
      ((trace_graph cfg chain price wall_clock sink).nodes.all
        fun pr => !pr.2.is_contract) = true := by
  refine ⟨?_, ?_, ?_⟩
  · rw [trace_eq, trace_eq]
  · rw [trace_checked_eq]
    exact (pure_trace_inv cfg chain.get_block_number_by_time chain.iter_normal_txs
      chain.iter_erc20_transfers price wall_clock).1.2.2.2.2.1
  · rw [trace_graph_eq]
    rw [List.all_eq_true]
    intro pr hp
    have h := (pure_trace_inv cfg chain.get_block_number_by_time chain.iter_normal_txs
      chain.iter_erc20_transfers price wall_clock).1.2.2.2.2.2 pr hp
    simp [h]

theorem keep_min_usd_eq_filter (m : ℚ) (l : List Edge) :
    keep_min_usd m l = l.filter (min_usd_keep m) := by
  induction l with
  | nil => rfl
  | cons x rest ih =>
    rcases hu : x.usd_value with _ | v
    · simp only [keep_min_usd, hu, List.filter_cons, min_usd_keep]
      rw [ih]
      simp [hu]
    · simp only [keep_min_usd, hu, List.filter_cons, min_usd_keep]
      by_cases hm : m ≤ v
      · rw [if_pos hm, ih]
        simp [hu, hm, min_usd_keep]
      · rw [if_neg hm, ih]
        simp [hu, hm, min_usd_keep]

/-- Claim C4: for every batch and every `min_usd > 0`, the `min_usd`
filter drops exactly the edges whose `usd_value` is known and strictly
below `min_usd`, retains every edge with unknown `usd_value`, and with
`min_usd = 0` passes the batch through unchanged. -/

theorem c4_min_usd_filter (edges : List Edge) (min_usd : ℚ) :
    (min_usd = 0 → apply_min_usd edges min_usd = edges) ∧
      (0 < min_usd →
        apply_min_usd edges min_usd = edges.filter (min_usd_keep min_usd)) := by
  constructor
  · intro h
    subst h
    simp [apply_min_usd]
  · intro h
    unfold apply_min_usd
    rw [if_neg (not_le.mpr h)]
    exact keep_min_usd_eq_filter min_usd edges

theorem c4_min_usd_filter_witness :
    (0 : ℚ) < 3 ∧
      apply_min_usd [w_edge "t1" (some 5), w_edge "t2" none, w_edge "t3" (some 1)] 3 =
        [w_edge "t1" (some 5), w_edge "t2" none, w_edge "t3" (some 1)].filter
          (min_usd_keep 3) ∧
      [w_edge "t1" (some 5), w_edge "t2" none, w_edge "t3" (some 1)].filter
          (min_usd_keep 3) = [w_edge "t1" (some 5), w_edge "t2" none] :=
  ⟨by decide,
   (c4_min_usd_filter [w_edge "t1" (some 5), w_edge "t2" none, w_edge "t3" (some 1)] 3).2
     (by decide),
   by decide⟩

theorem filter_key_orderedInsert (k : ℚ) (x : Edge) (l : List Edge) :
    (List.orderedInsert edge_ge x l).filter (fun e => decide (edge_sort_key e = k)) =
      if edge_sort_key x = k then
        x :: l.filter (fun e => decide (edge_sort_key e = k))
      else l.filter (fun e => decide (edge_sort_key e = k)) := by
  induction l with
  | nil =>
    by_cases hk : edge_sort_key x = k <;> simp [List.orderedInsert, hk]
  | cons b bs ih =>
    by_cases hr : edge_ge x b
    · rw [List.orderedInsert_of_le edge_ge bs hr]
      by_cases hk : edge_sort_key x = k <;> simp [List.filter_cons, hk]
    · have hnr : ¬ (edge_sort_key b ≤ edge_sort_key x) := hr
      simp only [List.orderedInsert, if_neg hr, List.filter_cons]
      by_cases hk : edge_sort_key x = k
      · have hbk : ¬ (edge_sort_key b = k) := by
          intro hbk
          exact hnr (le_of_eq (hbk.trans hk.symm))
        simp [hbk, ih, hk]
      · by_cases hbk : edge_sort_key b = k <;> simp [hbk, ih, hk]

theorem rank_edges_filter_key (k : ℚ) (l : List Edge) :
    (rank_edges l).filter (fun e => decide (edge_sort_key e = k)) =
      l.filter (fun e => decide (edge_sort_key e = k)) := by
  induction l with
  | nil => rfl
  | cons x rest ih =>
    show (List.orderedInsert edge_ge x (List.insertionSort edge_ge rest)).filter _ = _
    rw [filter_key_orderedInsert]
    by_cases hk : edge_sort_key x = k
    · rw [if_pos hk]
      rw [show List.insertionSort edge_ge rest = rank_edges rest from rfl, ih]
      simp [List.filter_cons, hk]
    · rw [if_neg hk]
      rw [show List.insertionSort edge_ge rest = rank_edges rest from rfl, ih]
      simp [List.filter_cons, hk]

/-- Claim C8: after the rank step the batch is in descending order of
`usd_value` with unknown values ranking as `-1` (so unknown-price edges
sort last), the output is a permutation of the input, and edges with
equal sort keys keep their relative order (stability). -/

theorem c8_rank_sorted_stable (edges : List Edge) :
    (rank_edges edges).Pairwise (fun a b => edge_sort_key b ≤ edge_sort_key a) ∧
      (rank_edges edges).Perm edges ∧
      (∀ k : ℚ, (rank_edges edges).filter (fun e => decide (edge_sort_key e = k)) =
        edges.filter (fun e => decide (edge_sort_key e = k))) := by
  refine ⟨?_, ?_, ?_⟩
  · exact List.sorted_insertionSort edge_ge edges
  · exact List.perm_insertionSort edge_ge edges
  · exact fun k => rank_edges_filter_key k edges

/-! ### Claim C7: token price resolution -/

/-- The selection loop agrees with the last-seen-max specification, up
to the loop's `Decimal("-1")` sentinel: the accumulator only moves when
the candidate liquidity reaches the running best. -/

theorem best_pair_aux_spec (pairs : List DexScreenerPair) :
    ∀ (bp : Option ℚ) (bl : ℚ),
      best_pair_aux pairs bp bl =
        match spec_best_pair pairs with
        | none => (bp, bl)
        | some (pr, l) => if bl ≤ l then (some pr, l) else (bp, bl) := by
  induction pairs with
  | nil => intro bp bl; rfl
  | cons p rest ih =>
    intro bp bl
    rcases hp : p.price_usd with _ | pr
    · simp only [best_pair_aux, spec_best_pair, hp]
      rw [ih bp bl]
      rcases hs : spec_best_pair rest with _ | ⟨qpr, ql⟩ <;> simp [hs]
    · simp only [best_pair_aux, spec_best_pair, hp]
      by_cases hbl : bl ≤ pair_liquidity p
      · rw [if_pos hbl, ih (some pr) (pair_liquidity p)]
        rcases hs : spec_best_pair rest with _ | ⟨qpr, ql⟩
        · simp [hbl]
        · by_cases hql : ql < pair_liquidity p
          · have h3 : ¬ (pair_liquidity p ≤ ql) := not_le.mpr hql
            simp [h3, hql, hbl]
          · have h1 : pair_liquidity p ≤ ql := not_lt.mp hql
            simp [h1, hql, le_trans hbl h1]
      · rw [if_neg hbl, ih bp bl]
        rcases hs : spec_best_pair rest with _ | ⟨qpr, ql⟩
        · simp [hbl]
        · by_cases hql : ql < pair_liquidity p
          · have h2 : ¬ (bl ≤ ql) := fun hc => hbl (le_trans hc (le_of_lt hql))
            simp [hql, hbl, h2]
          · simp [hql]

/-- Claim C7 (amended): `get_token_usd_price` resolves in the fixed
order: configured fixed override first, then the stablecoin set (price
exactly 1), then the cache, then the market-data lookup, whose failure
(or lack of a priced pair) yields `none` without an escaping exception.
Among the returned pairs the priced pair with the highest liquidity
(absent liquidity as 0, ties to the last pair seen) is selected, cached
and returned — provided its liquidity is at least the loop's `-1`
sentinel, which holds whenever liquidity values are non-negative; a
best pair whose liquidity is below `-1` is skipped and the result is
unknown. -/

theorem c7_token_price_resolution (fixed : List (String × ℚ)) (stables : List String)
    (cache : List (String × ℚ)) (gp : Except Unit (List DexScreenerPair)) (t : String) :
    (∀ p, List.lookup (py_lower t) fixed = some p →
        get_token_usd_price fixed stables cache gp t = (some p, cache)) ∧
      (List.lookup (py_lower t) fixed = none → py_lower t ∈ stables →
        get_token_usd_price fixed stables cache gp t = (some 1, cache)) ∧
      (List.lookup (py_lower t) fixed = none → py_lower t ∉ stables →
        ∀ p, List.lookup (py_lower t) cache = some p →
        get_token_usd_price fixed stables cache gp t = (some p, cache)) ∧
      (List.lookup (py_lower t) fixed = none → py_lower t ∉ stables →
        List.lookup (py_lower t) cache = none → gp = .error () →
        get_token_usd_price fixed stables cache gp t = (none, cache)) ∧
      (∀ pairs, List.lookup (py_lower t) fixed = none → py_lower t ∉ stables →
        List.lookup (py_lower t) cache = none → gp = .ok pairs →
        (spec_best_pair pairs = none →
            get_token_usd_price fixed stables cache gp t = (none, cache)) ∧
          (∀ pr l, spec_best_pair pairs = some (pr, l) →
            ((-1 : ℚ) ≤ l →
              get_token_usd_price fixed stables cache gp t =
                (some pr, cache ++ [(py_lower t, pr)])) ∧
            (l < -1 →
              get_token_usd_price fixed stables cache gp t = (none, cache)))) := by
  refine ⟨?_, ?_, ?_, ?_, ?_⟩
  · intro p hp
    simp [get_token_usd_price, hp]
  · intro hf hs
    simp [get_token_usd_price, hf, hs]
  · intro hf hs p hc
    simp [get_token_usd_price, hf, hs, hc]
  · intro hf hs hc hgp
    simp [get_token_usd_price, hf, hs, hc, hgp]
  · intro pairs hf hs hc hgp
    constructor
    · intro hspec
      simp [get_token_usd_price, hf, hs, hc, hgp,
        best_pair_aux_spec pairs none (-1), hspec]
    · intro pr l hspec
      constructor
      · intro hl
        simp [get_token_usd_price, hf, hs, hc, hgp,
          best_pair_aux_spec pairs none (-1), hspec, hl]
      · intro hl
        have hl' : ¬ ((-1 : ℚ) ≤ l) := not_le.mpr hl
        simp [get_token_usd_price, hf, hs, hc, hgp,
          best_pair_aux_spec pairs none (-1), hspec, hl']

/-- Counterexample to claim C7 as stated: for a market-data response
with a single priced pair of liquidity `-2`, the pair with the highest
liquidity carries price 7, yet the adapter returns unknown and caches
nothing (the loop's `-1` sentinel rejects the pair). -/

theorem c7_token_price_resolution_counterexample :
    spec_best_pair [cex_pair] = some (7, -2) ∧
      get_token_usd_price [] [] [] (.ok [cex_pair]) "0xT" = (none, []) := by
  constructor
  · decide
  · decide

theorem c7_token_price_resolution_witness :
    List.lookup (py_lower "0xUSDC") [("0xusdc", (93000 : ℚ))] = some 93000 ∧
      get_token_usd_price [("0xusdc", (93000 : ℚ))] [] [] (.ok []) "0xUSDC" =
        (some 93000, []) :=
  ⟨by decide,
   (c7_token_price_resolution [("0xusdc", (93000 : ℚ))] [] [] (.ok []) "0xUSDC").1
     93000 (by decide)⟩

/-! ### Claim C9: the retry envelope of the live chain adapter -/

theorem range_map_add_succ (n i : ℕ) :
    (List.range (n + 1)).map (fun j => i + j) =
      i :: (List.range n).map (fun j => (i + 1) + j) := by
  rw [List.range_succ_eq_map]
  simp only [List.map_cons, List.map_map, Nat.add_zero]
  congr 1
  exact List.map_congr_left fun a _ => by
    simp only [Function.comp_apply]
    omega

theorem call_aux_fail (attempts : ℕ → AttemptResult) :
    ∀ (n i : ℕ) (last_err : Option String) (backoffs : List ℕ),
      0 < n → (∀ j, j < n → (attempt_err (attempts (i + j))).isSome = true) →
      call_aux attempts i n last_err backoffs =
        .data_source_error (attempt_err (attempts (i + n - 1)))
          (backoffs ++ (List.range n).map (fun j => i + j)) := by
  intro n
  induction n with
  | zero => intro i le bo h; omega
  | succ m ih =>
    intro i le bo _ hfail
    have h0 := hfail 0 (by omega)
    simp only [Nat.add_zero] at h0
    rcases ha : attempts i with e | b
    · cases m with
      | zero =>
        simp [call_aux, ha, attempt_err, List.range_succ]
      | succ m' =>
        rw [show call_aux attempts i (m' + 1 + 1) le bo =
            call_aux attempts (i + 1) (m' + 1) (some e) (bo ++ [i]) from by
          rw [call_aux, ha]]
        rw [ih (i + 1) (some e) (bo ++ [i]) (by omega)
          (fun j hj => by
            have hf := hfail (j + 1) (by omega)
            have harr : i + 1 + j = i + (j + 1) := by omega
            rw [harr]
            exact hf)]
        have harr2 : i + 1 + (m' + 1) - 1 = i + (m' + 1 + 1) - 1 := by omega
        rw [harr2]
        rw [range_map_add_succ (m' + 1) i]
        simp [List.append_assoc]
    · have hrate : is_rate_limited_body b = true := by
        by_contra hb
        rw [Bool.not_eq_true] at hb
        rw [ha] at h0
        simp [attempt_err, hb] at h0
      cases m with
      | zero =>
        simp [call_aux, ha, hrate, attempt_err, List.range_succ]
      | succ m' =>
        rw [show call_aux attempts i (m' + 1 + 1) le bo =
            call_aux attempts (i + 1) (m' + 1) (some (body_message b)) (bo ++ [i]) from by
          simp [call_aux, ha, hrate]]
        rw [ih (i + 1) (some (body_message b)) (bo ++ [i]) (by omega)
          (fun j hj => by
            have hf := hfail (j + 1) (by omega)
            have harr : i + 1 + j = i + (j + 1) := by omega
            rw [harr]
            exact hf)]
        have harr2 : i + 1 + (m' + 1) - 1 = i + (m' + 1 + 1) - 1 := by omega
        rw [harr2]
        rw [range_map_add_succ (m' + 1) i]
        simp [List.append_assoc]

theorem call_aux_success (attempts : ℕ → AttemptResult) :
    ∀ (n i : ℕ) (last_err : Option String) (backoffs : List ℕ) (b : ApiBody)
      (out_backoffs : List ℕ),
      call_aux attempts i n last_err backoffs = .success b out_backoffs →
      is_rate_limited_body b = false := by
  intro n
  induction n with
  | zero =>
    intro i le bo b obo heq
    simp [call_aux] at heq
  | succ m ih =>
    intro i le bo b obo heq
    rcases ha : attempts i with e | b'
    · rw [show call_aux attempts i (m + 1) le bo =
          call_aux attempts (i + 1) m (some e) (bo ++ [i]) from by
        rw [call_aux, ha]] at heq
      exact ih (i + 1) (some e) (bo ++ [i]) b obo heq
    · by_cases hr : is_rate_limited_body b'
      · rw [show call_aux attempts i (m + 1) le bo =
            call_aux attempts (i + 1) m (some (body_message b')) (bo ++ [i]) from by
          simp [call_aux, ha, hr]] at heq
        exact ih (i + 1) (some (body_message b')) (bo ++ [i]) b obo heq
      · rw [show call_aux attempts i (m + 1) le bo = .success b' bo from by
          simp [call_aux, ha, hr]] at heq
        injection heq with h1 h2
        subst h1
        simpa using hr

/-- Claim C9: when every attempt of `_call` fails (an exception, or a
body signalling rate limiting), the loop makes exactly its
`max_retries` attempts, runs `backoff_sleep(attempt)` after each failed
attempt (indices `0 .. max_retries - 1`), and finally raises
`DataSourceError` carrying the last recorded cause; a body that signals
rate limiting is never returned as a success. -/

theorem c9_retry_envelope :
    (∀ (max_retries : ℕ) (attempts : ℕ → AttemptResult),
        0 < max_retries →
        ((List.range max_retries).all fun i => (attempt_err (attempts i)).isSome) = true →
        etherscan_call max_retries attempts =
          .data_source_error (attempt_err (attempts (max_retries - 1)))
            (List.range max_retries)) ∧
      (∀ (max_retries : ℕ) (attempts : ℕ → AttemptResult) (b : ApiBody)
          (backoffs : List ℕ),
        etherscan_call max_retries attempts = .success b backoffs →
        is_rate_limited_body b = false) := by
  constructor
  · intro n attempts hn hfail
    rw [List.all_eq_true] at hfail
    unfold etherscan_call
    rw [call_aux_fail attempts n 0 none [] hn
      (fun j hj => by
        rw [Nat.zero_add]
        exact hfail j (List.mem_range.mpr hj))]
    simp
  · intro n attempts b bo heq
    exact call_aux_success attempts n 0 none [] b bo heq

theorem c9_retry_envelope_witness :
    0 < 2 ∧
      ((List.range 2).all fun i => (attempt_err (w9_attempts i)).isSome) = true ∧
      etherscan_call 2 w9_attempts =
        .data_source_error (attempt_err (w9_attempts 1)) (List.range 2) :=
  ⟨by decide, by decide,
   c9_retry_envelope.1 2 w9_attempts (by decide) (by decide)⟩

/-! ### Claim C5: exact amount round-trips

The division `Decimal(v) / 10^d` is exact as long as `v` fits in the 28
significant digits of the default decimal context; an integer with more
digits is rounded (half-even), so the round-trip equation fails for such
values — realistic for raw token amounts of high-supply tokens. -/

theorem dec_div_pow10_exact (v : ℤ) (d : ℕ) (h : digits10 v.natAbs ≤ DECIMAL_PREC) :
    dec_div_pow10 v d * 10 ^ d = (v : ℚ) := by
  have h10 : ((10 : ℚ) ^ d) ≠ 0 := by positivity
  unfold dec_div_pow10
  split
  · rename_i hneg
    rw [dec_div_pow10_nat_exact _ _ h]
    have hq : ((v.natAbs : ℕ) : ℚ) = -(v : ℚ) := by
      rw [Int.cast_natAbs, abs_of_neg hneg]
      push_cast
      ring
    rw [neg_mul, div_mul_cancel₀ _ h10, hq, neg_neg]
  · rename_i hneg
    rw [dec_div_pow10_nat_exact _ _ h]
    have hq : ((v.natAbs : ℕ) : ℚ) = (v : ℚ) := by
      rw [Int.cast_natAbs, abs_of_nonneg (not_lt.mp hneg)]
    rw [div_mul_cancel₀ _ h10, hq]

/-- Claim C5 (amended): an edge's amount satisfies the exact round-trip
`amount × 10^18 = value_wei` for a native transfer (respectively
`amount × 10^d = value_raw` for a token transfer with known decimals
`d`) whenever the integer value fits in the 28 significant digits of the
default decimal context; and native edges are built exactly from the
transfers with positive value, token edges from their raw rows. -/

theorem c5_amount_round_trip :
    (∀ (price : PricePort) (tx : RawEthTransfer),
        0 < tx.value_wei → digits10 tx.value_wei.natAbs ≤ DECIMAL_PREC →
        (mk_eth_edge price tx).amount * 10 ^ 18 = (tx.value_wei : ℚ)) ∧
      (∀ (price : PricePort) (tx : RawErc20Transfer) (d : ℕ),
        tx.token_decimals = some d → digits10 tx.value_raw.natAbs ≤ DECIMAL_PREC →
        (mk_erc20_edge price tx).amount * 10 ^ d = (tx.value_raw : ℚ)) ∧
      (∀ (price : PricePort) (txs : List RawEthTransfer) (e : Edge),
        e ∈ eth_edges_aux price txs →
        ∃ tx ∈ txs, 0 < tx.value_wei ∧ e = mk_eth_edge price tx) ∧
      (∀ (price : PricePort) (ign : Bool) (txs : List RawErc20Transfer) (e : Edge),
        e ∈ erc20_edges_aux price ign txs → ∃ tx ∈ txs, e = mk_erc20_edge price tx) := by
  refine ⟨?_, ?_, ?_, ?_⟩
  · intro price tx _h1 h2
    exact dec_div_pow10_exact tx.value_wei WEI_PER_ETH_EXP h2
  · intro price tx d hd h2
    have hamt : (mk_erc20_edge price tx).amount = dec_div_pow10 tx.value_raw d := by
      simp [mk_erc20_edge, hd]
    rw [hamt]
    exact dec_div_pow10_exact tx.value_raw d h2
  · intro price txs e he
    induction txs with
    | nil => simp [eth_edges_aux] at he
    | cons tx rest ih =>
      unfold eth_edges_aux at he
      split at he
      · obtain ⟨tx', h1, h2, h3⟩ := ih he
        exact ⟨tx', List.mem_cons_of_mem tx h1, h2, h3⟩
      · rename_i hv
        rcases List.mem_cons.mp he with he | he
        · exact ⟨tx, List.mem_cons_self tx rest, by omega, he⟩
        · obtain ⟨tx', h1, h2, h3⟩ := ih he
          exact ⟨tx', List.mem_cons_of_mem tx h1, h2, h3⟩
  · intro price ign txs e he
    induction txs with
    | nil => simp [erc20_edges_aux] at he
    | cons tx rest ih =>
      unfold erc20_edges_aux at he
      split at he
      · obtain ⟨tx', h1, h2⟩ := ih he
        exact ⟨tx', List.mem_cons_of_mem tx h1, h2⟩
      · rcases List.mem_cons.mp he with he | he
        · exact ⟨tx, List.mem_cons_self tx rest, he⟩
        · obtain ⟨tx', h1, h2⟩ := ih he
          exact ⟨tx', List.mem_cons_of_mem tx h1, h2⟩

theorem cex_digits : digits10 (10 ^ 28 + 1) = 29 := by
  have hvpos : 0 < (10 : ℕ) ^ 28 + 1 := by positivity
  have hd := digits10_spec (10 ^ 28 + 1) hvpos
  have hb : 0 < (10 : ℕ) ^ 28 := by positivity
  by_contra hne29
  rcases Nat.lt_or_ge (digits10 (10 ^ 28 + 1)) 29 with hlt | hge
  · have hle : (10 : ℕ) ^ digits10 (10 ^ 28 + 1) ≤ 10 ^ 28 :=
      Nat.pow_le_pow_right (by norm_num) (by omega)
    have := lt_of_lt_of_le hd.2 hle
    omega
  · have hle : (10 : ℕ) ^ 29 ≤ 10 ^ (digits10 (10 ^ 28 + 1) - 1) :=
      Nat.pow_le_pow_right (by norm_num) (by omega)
    have hge' := le_trans hle hd.1
    have hpow : (10 : ℕ) ^ 29 = 10 ^ 28 * 10 := by ring
    omega

theorem cex_amount : dec_div_pow10 ((10 : ℤ) ^ 28 + 1) 18 = 10 ^ 10 := by
  unfold dec_div_pow10
  rw [if_neg (by decide : ¬ ((10 : ℤ) ^ 28 + 1 < 0))]
  have hna : ((10 : ℤ) ^ 28 + 1).natAbs = 10 ^ 28 + 1 := by decide
  rw [hna]
  have hne : ¬ ((10 : ℕ) ^ 28 + 1 = 0) := by positivity
  have hgt : ¬ (digits10 ((10 : ℕ) ^ 28 + 1) ≤ DECIMAL_PREC) := by
    rw [cex_digits]
    decide
  simp only [dec_div_pow10_nat, hne, if_false, cex_digits, hgt, DECIMAL_PREC]
  have hrhe : round_half_even (10 ^ 28 + 1) (10 ^ (29 - 28)) = 10 ^ 27 := by decide
  rw [hrhe]
  push_cast
  ring

theorem c5_amount_round_trip_counterexample :
    cex_eth_tx.value_wei = 10 ^ 28 + 1 ∧ 0 < cex_eth_tx.value_wei ∧
      (mk_eth_edge null_price cex_eth_tx).amount * 10 ^ 18 ≠ (cex_eth_tx.value_wei : ℚ) := by
  refine ⟨rfl, by decide, ?_⟩
  have hamt : (mk_eth_edge null_price cex_eth_tx).amount = 10 ^ 10 := cex_amount
  rw [hamt]
  have hcast : ((cex_eth_tx.value_wei : ℤ) : ℚ) = 10 ^ 28 + 1 := by
    show (((10 : ℤ) ^ 28 + 1 : ℤ) : ℚ) = 10 ^ 28 + 1
    push_cast
    ring
  rw [hcast]
  norm_num

theorem c5_amount_round_trip_witness :
    (0 < w5_eth_tx.value_wei ∧ digits10 w5_eth_tx.value_wei.natAbs ≤ DECIMAL_PREC ∧
        (mk_eth_edge null_price w5_eth_tx).amount * 10 ^ 18 = (w5_eth_tx.value_wei : ℚ)) ∧
      (w5_erc20_tx.token_decimals = some 2 ∧
        digits10 w5_erc20_tx.value_raw.natAbs ≤ DECIMAL_PREC ∧
        (mk_erc20_edge null_price w5_erc20_tx).amount * 10 ^ 2 = (w5_erc20_tx.value_raw : ℚ)) :=
  ⟨⟨by decide, by decide,
    c5_amount_round_trip.1 null_price w5_eth_tx (by decide) (by decide)⟩,
   ⟨rfl, by decide,
    c5_amount_round_trip.2.1 null_price w5_erc20_tx 2 rfl (by decide)⟩⟩

end Tracer

